import Mathlib

/-
Verification of the gobdd step-matching and scenario-execution engine.

The Go sources are shallowly embedded: pure functions become Lean
functions, mutation of the Suite becomes explicit state passing, panics
become Except errors (or are recovered exactly where the Go code
recovers), and time.Now is a monotone Nat-valued clock parameter.
Compiled regular expressions (Go's regexp package, an external library)
are modelled by the record of the three operations the engine consumes:
MatchString, the length of FindAll(text, -1), and FindSubmatch.
-/

namespace Gobdd

/-- Model of a compiled Go regexp.Regexp as consumed by the engine:
MatchString, the number of non-overlapping matches found by
FindAll(text, -1), and the submatch list of FindSubmatch. -/
structure Regexp where
  matchString : String → Bool
  findAllLen : String → Nat
  findSubmatch : String → List String

/-- The reflect.Kind of a declared step-function parameter, as far as
paramType inspects it: String, Int, Float32, Float64, or anything else. -/
inductive GoKind
  | string
  | int
  | float32
  | float64
  | other
deriving Repr, DecidableEq

/-- A Go value handed to a step function. The context and raw byte
slices are symbolic; floating-point parses are kept symbolic as the
parsed string together with the bitSize passed to strconv.ParseFloat,
since two different bitSizes give different float64 results for
strings such as "0.1". -/
inductive GoValue
  | ctx
  | bytes (s : String)
  | str (s : String)
  | int (n : Int)
  | f32 (s : String)
  | f64 (s : String) (bitSize : Nat)
deriving Repr, DecidableEq

/-- Opaque handle for a registered Go callable (an interface value).
inKinds are the declared parameter kinds after the leading context
parameter, so reflect.ValueOf(f).Type().NumIn() = inKinds.length + 1. -/
structure GoFunc where
  inKinds : List GoKind
  id : Nat
deriving Repr, DecidableEq

/-- reflect.ValueOf(f).Type().NumIn(): the declared arity including the
leading context parameter. -/
def GoFunc.numIn (f : GoFunc) : Nat :=
  f.inKinds.length + 1

/-- gobdd.stepDef: a compiled pattern paired with its callable. -/
structure stepDef where
  expr : Regexp
  f : GoFunc

/-- Whether a definition's pattern matches the step text anywhere
(step.expr.MatchString(text)). -/
def stepMatches (text : String) (d : stepDef) : Bool :=
  d.expr.matchString text

/-- The number of non-overlapping matches of a definition's pattern
against the text (len(step.expr.FindAll([]byte(text), -1))). -/
def stepCount (text : String) (d : stepDef) : Nat :=
  d.expr.findAllLen text

/-- The loop state of findStepDef: the running best match count, whether
any definition matched, and the currently selected definition (none is
the Go zero value of stepDef). -/
structure FindState where
  found : Nat
  matched : Bool
  sd : Option stepDef

/-- The loop body of Suite.findStepDef, translated clause for clause:
definitions that do not match are skipped; a matching definition is
recorded, and replaces the selection only when its FindAll count
strictly exceeds the running best. -/
def findStepDefLoop (text : String) : List stepDef → FindState → FindState
  | [], st => st
  | d :: rest, st =>
    if stepMatches text d then
      if st.found < stepCount text d then
        findStepDefLoop text rest
          { found := stepCount text d, matched := true, sd := some d }
      else
        findStepDefLoop text rest { st with matched := true }
    else
      findStepDefLoop text rest st

/-- Suite.findStepDef: scan the registered definitions in order and
return the selected one, or the error "cannot find step definition"
when no definition matched. -/
def findStepDef (steps : List stepDef) (text : String) :
    Except String (Option stepDef) :=
  if (findStepDefLoop text steps { found := 0, matched := false, sd := none }).matched then
    .ok (findStepDefLoop text steps { found := 0, matched := false, sd := none }).sd
  else
    .error "cannot find step definition"

/-- The greatest FindAll count attained by any matching definition in
the list (0 when none matches); a transparent reference notion used to
specify findStepDef. -/
def bestMatchCount (steps : List stepDef) (text : String) : Nat :=
  steps.foldr (fun d a => if stepMatches text d then max (stepCount text d) a else a) 0

/-- Witness registry regexp matching nothing. -/
def wRegexNoMatch : Regexp :=
  { matchString := fun _ => false, findAllLen := fun _ => 0,
    findSubmatch := fun _ => [] }

/-- Witness registry regexp matching exactly the text "x x" with two
occurrences. -/
def wRegexTwo : Regexp :=
  { matchString := fun t => t == "x x", findAllLen := fun t => if t == "x x" then 2 else 0,
    findSubmatch := fun t => if t == "x x" then ["x"] else [] }

/-- A non-matching step definition for the witness registries. -/
def wDef0 : stepDef := { expr := wRegexNoMatch, f := { inKinds := [], id := 0 } }

/-- The matching step definition of the witness registries. -/
def wDef1 : stepDef := { expr := wRegexTwo, f := { inKinds := [], id := 1 } }

/-! ### Models of the strconv library functions used by the engine -/

/-- Decimal digits to their value, most significant first. -/
def digitsToNat (l : List Char) : Nat :=
  l.foldl (fun a c => a * 10 + (c.toNat - 48)) 0

/-- The longest leading run of decimal digits, and the remainder. -/
def splitDigits : List Char → List Char × List Char
  | [] => ([], [])
  | c :: t =>
    if c.isDigit then
      let p := splitDigits t
      (c :: p.1, p.2)
    else
      ([], c :: t)

/-- The syntactic part of strconv.Atoi (equivalently ParseInt(s, 10, 64)):
an optional single sign followed by one or more decimal digits, and
nothing else; no underscores, spaces or base prefixes. Returns the
mathematical value before the 64-bit range check. -/
def goAtoiSyntax (s : String) : Option Int :=
  let p : Int × List Char :=
    match s.data with
    | '+' :: t => (1, t)
    | '-' :: t => (-1, t)
    | t => (1, t)
  if p.2 ≠ [] ∧ p.2.all Char.isDigit then
    some (p.1 * digitsToNat p.2)
  else
    none

/-- Smallest int64. -/
def int64Min : Int := -(2 ^ 63)

/-- Largest int64. -/
def int64Max : Int := 2 ^ 63 - 1

/-- Whether strconv.Atoi(s) returns err == nil: valid syntax and the
value within the int64 range. -/
def goAtoiOk (s : String) : Bool :=
  match goAtoiSyntax s with
  | none => false
  | some v => decide (int64Min ≤ v ∧ v ≤ int64Max)

/-- The value strconv.Atoi(s) returns when its error is discarded: 0 on
a syntax error, the value clamped to the int64 range on a range error. -/
def goAtoi (s : String) : Int :=
  match goAtoiSyntax s with
  | none => 0
  | some v =>
    if v < int64Min then int64Min
    else if int64Max < v then int64Max
    else v

/-- ASCII lower-casing, for the case-insensitive special float names. -/
def asciiLower (c : Char) : Char :=
  if 'A' ≤ c ∧ c ≤ 'Z' then Char.ofNat (c.toNat + 32) else c

/-- Case-insensitive ASCII equality of character lists. -/
def strIEq (a b : List Char) : Bool :=
  a.map asciiLower == b.map asciiLower

/-- The special values strconv.ParseFloat accepts with err == nil:
optionally signed "inf" or "infinity", and unsigned "nan", all
case-insensitive. -/
def specialOk (l : List Char) : Bool :=
  match l with
  | '+' :: t => strIEq t "inf".data || strIEq t "infinity".data
  | '-' :: t => strIEq t "inf".data || strIEq t "infinity".data
  | _ => strIEq l "inf".data || strIEq l "infinity".data || strIEq l "nan".data

/-- Hexadecimal digit test. -/
def isHexDigitCh (c : Char) : Bool :=
  c.isDigit || ('a' ≤ c ∧ c ≤ 'f') || ('A' ≤ c ∧ c ≤ 'F')

/-- Hexadecimal digits to their value, most significant first. -/
def hexToNat (l : List Char) : Nat :=
  l.foldl (fun a c =>
    a * 16 + (if c.isDigit then c.toNat - 48
              else if 'a' ≤ c ∧ c ≤ 'f' then c.toNat - 87
              else c.toNat - 55)) 0

/-- The longest leading run of hexadecimal digits, and the remainder. -/
def splitHexDigits : List Char → List Char × List Char
  | [] => ([], [])
  | c :: t =>
    if isHexDigitCh c then
      let p := splitHexDigits t
      (c :: p.1, p.2)
    else
      ([], c :: t)

/-- Go underscore rule for numeric literals, as checked along the list:
every underscore must sit between two digits (for hex literals, the x
of the base prefix may precede it). -/
def underscoresOkAux (isD : Char → Bool) (hex : Bool) : Char → List Char → Bool
  | _, [] => true
  | prev, c :: t =>
    if c = '_' then
      (isD prev || (hex && (prev = 'x' || prev = 'X'))) &&
        (match t with
         | d :: _ => isD d
         | [] => false) &&
        underscoresOkAux isD hex c t
    else
      underscoresOkAux isD hex c t

/-- Whether the underscores in the list are legally placed. -/
def underscoresOk (isD : Char → Bool) (hex : Bool) (l : List Char) : Bool :=
  match l with
  | [] => true
  | c :: t => c ≠ '_' && underscoresOkAux isD hex c t

/-- The smallest positive magnitude above which a decimal rounds into
the float32 range: values at or above 2^128 - 2^103 round to +Inf and
ParseFloat(s, 32) reports ErrRange. -/
def f32MaxBound : Nat := 2 ^ 128 - 2 ^ 103

/-- Whether m * 10^e is within the float32 rounding range (no ErrRange
from ParseFloat(s, 32)): strictly below the overflow threshold and, at
the low end, strictly above 2^-150 (at or below which it rounds to 0). -/
def decInRange32 (m : Nat) (e : Int) : Bool :=
  if m == 0 then true
  else
    (if 0 ≤ e then decide (m * 10 ^ e.toNat < f32MaxBound)
     else decide (m < f32MaxBound * 10 ^ (-e).toNat)) &&
    (if 0 ≤ e then true else decide (10 ^ (-e).toNat < m * 2 ^ 150))

/-- Whether m * 2^p is within the float32 rounding range. -/
def hexInRange32 (m : Nat) (p : Int) : Bool :=
  if m == 0 then true
  else
    (if 0 ≤ p then decide (m * 2 ^ p.toNat < f32MaxBound)
     else decide (m < f32MaxBound * 2 ^ (-p).toNat)) &&
    (if 0 ≤ p then true else decide (2 ^ (-p).toNat < m * 2 ^ 150))

/-- The decimal mantissa forms ParseFloat accepts: digits, digits dot
optional digits, or dot digits; returns the mantissa's digit value, the
decimal shift contributed by the fraction, and the remainder. -/
def decMantissa (l : List Char) : Option (Nat × Int × List Char) :=
  let p := splitDigits l
  match p.2 with
  | '.' :: r2 =>
    let q := splitDigits r2
    if p.1.isEmpty && q.1.isEmpty then none
    else some (digitsToNat (p.1 ++ q.1), -(q.1.length : Int), q.2)
  | _ =>
    if p.1.isEmpty then none else some (digitsToNat p.1, 0, p.2)

/-- Decimal float acceptance for ParseFloat(s, 32) after the sign:
mantissa, optional e-exponent, underscores between digits, and the
float32 range check. -/
def decFloatOk (l : List Char) : Bool :=
  underscoresOk Char.isDigit false l &&
    (let l := l.filter (fun c => c ≠ '_')
     match decMantissa l with
     | none => false
     | some (m, sh, rest) =>
       match rest with
       | [] => decInRange32 m sh
       | c :: r =>
         if c = 'e' ∨ c = 'E' then
           let q : Int × List Char :=
             match r with
             | '+' :: t => (1, t)
             | '-' :: t => (-1, t)
             | t => (1, t)
           let d := splitDigits q.2
           if d.1.isEmpty || !d.2.isEmpty then false
           else decInRange32 m (sh + q.1 * (digitsToNat d.1 : Int))
         else false)

/-- Hexadecimal float acceptance for ParseFloat(s, 32): after the 0x
prefix, a hex mantissa and a mandatory p-exponent in decimal. -/
def hexFloatOk (l : List Char) : Bool :=
  underscoresOk isHexDigitCh true ('x' :: l) &&
    (let l := l.filter (fun c => c ≠ '_')
     let mant : Option (Nat × Int × List Char) :=
       (let p := splitHexDigits l
        match p.2 with
        | '.' :: r2 =>
          let q := splitHexDigits r2
          if p.1.isEmpty && q.1.isEmpty then none
          else some (hexToNat (p.1 ++ q.1), -(4 * q.1.length : Int), q.2)
        | _ =>
          if p.1.isEmpty then none else some (hexToNat p.1, 0, p.2))
     match mant with
     | none => false
     | some (m, sh, rest) =>
       match rest with
       | c :: r =>
         if c = 'p' ∨ c = 'P' then
           let q : Int × List Char :=
             match r with
             | '+' :: t => (1, t)
             | '-' :: t => (-1, t)
             | t => (1, t)
           let d := splitDigits q.2
           if d.1.isEmpty || !d.2.isEmpty then false
           else hexInRange32 m (sh + q.1 * (digitsToNat d.1 : Int))
         else false
       | [] => false)

/-- Whether strconv.ParseFloat(s, 32) returns err == nil: a special
value, or a signed decimal or hexadecimal float of valid syntax whose
value survives the float32 range check. -/
def goParseFloat32Ok (s : String) : Bool :=
  let l := s.data
  if specialOk l then true
  else
    let l1 :=
      match l with
      | '+' :: t => t
      | '-' :: t => t
      | t => t
    match l1 with
    | '0' :: x :: r =>
      if x = 'x' ∨ x = 'X' then hexFloatOk r else decFloatOk l1
    | _ => decFloatOk l1

/-! ### Models of the strings library functions used by the engine -/

/-- strings.Contains on character lists: pat occurs somewhere in s. -/
def containsSub (pat : List Char) : List Char → Bool
  | [] => pat.isPrefixOf []
  | c :: t => pat.isPrefixOf (c :: t) || containsSub pat t

/-- strings.Contains(s, pat). -/
def hasSubstring (s pat : String) : Bool :=
  containsSub pat.data s.data

/-- strings.ReplaceAll on character lists, fueled so the definition is
structural and computes inside the kernel: replace non-overlapping
occurrences left to right, resuming after the replacement. The fuel is
the length of the scanned list, which each step consumes at least one
character of, so it never runs out. The engine only substitutes
non-empty tokens, so the empty-pattern behavior of Go (interleaving the
replacement) is not modelled. -/
def replaceAllCharsFuel (pat rep : List Char) : Nat → List Char → List Char
  | 0, s => s
  | _ + 1, [] => []
  | fuel + 1, c :: t =>
    if pat.isPrefixOf (c :: t) && !pat.isEmpty then
      rep ++ replaceAllCharsFuel pat rep fuel (t.drop (pat.length - 1))
    else
      c :: replaceAllCharsFuel pat rep fuel t

/-- strings.ReplaceAll(s, pat, rep) for non-empty pat. -/
def goReplaceAll (s pat rep : String) : String :=
  ⟨replaceAllCharsFuel pat.data rep.data s.data.length s.data⟩

/-! ### An executable model of the compiled regular expressions that
actually arise in the verified scenarios

The engine treats regexps abstractly (the Regexp record above); the
concrete patterns the claims exercise are sequences of literal
characters and single-character classes with fixed-offset capturing
groups, for which RE2 semantics (leftmost unanchored match,
non-overlapping FindAll, fixed-position submatches) is implemented
directly below. -/

/-- One element of a compiled pattern: a literal character or the class
of one decimal digit. -/
inductive RItem
  | ch (c : Char)
  | digit
deriving Repr, DecidableEq

/-- Whether the pattern matches starting exactly at the head of the
list (each item consumes one character). -/
def matchItemsFrom : List RItem → List Char → Bool
  | [], _ => true
  | .ch c :: is, x :: xs => (x == c) && matchItemsFrom is xs
  | .digit :: is, x :: xs => x.isDigit && matchItemsFrom is xs
  | _ :: _, [] => false

/-- Whether the pattern matches anywhere in the list (MatchString). -/
def matchAnywhere (is : List RItem) : List Char → Bool
  | [] => matchItemsFrom is []
  | c :: t => matchItemsFrom is (c :: t) || matchAnywhere is t

/-- The number of non-overlapping matches, scanning left to right and
resuming after each match (len(FindAll(text, -1)) for these
fixed-length patterns), fueled to stay structural. -/
def countMatchesFuel (is : List RItem) : Nat → List Char → Nat
  | 0, _ => 0
  | _ + 1, [] => if matchItemsFrom is [] then 1 else 0
  | fuel + 1, c :: t =>
    if matchItemsFrom is (c :: t) then
      1 + countMatchesFuel is fuel (t.drop (is.length - 1))
    else
      countMatchesFuel is fuel t

/-- The index of the leftmost match, if any. -/
def firstMatchAt (is : List RItem) : List Char → Option Nat
  | [] => if matchItemsFrom is [] then some 0 else none
  | c :: t =>
    if matchItemsFrom is (c :: t) then some 0
    else (firstMatchAt is t).map (· + 1)

/-- The length-len slice of s starting at off. -/
def sliceChars (s : List Char) (off len : Nat) : List Char :=
  (s.drop off).take len

/-- Package a fixed-length pattern with its capturing groups, given as
(offset, length) pairs inside the match, into a Regexp: MatchString is
the unanchored match, FindAll counts non-overlapping matches, and
FindSubmatch returns the whole leftmost match followed by each group. -/
def regexpOfItems (is : List RItem) (groups : List (Nat × Nat)) : Regexp :=
  { matchString := fun s => matchAnywhere is s.data
    findAllLen := fun s => countMatchesFuel is (s.data.length + 1) s.data
    findSubmatch := fun s =>
      match firstMatchAt is s.data with
      | none => []
      | some i =>
        ⟨sliceChars s.data i is.length⟩ ::
          groups.map (fun g => (⟨sliceChars s.data (i + g.1) g.2⟩ : String)) }

/-- The literal characters of a string as pattern items. -/
def litItems (s : String) : List RItem :=
  s.data.map RItem.ch

/-! ### The Suite: registries and registration -/

/-- gobdd.Suite, restricted to the state the verified claims exercise:
the registered step definitions and the parameter-type registry. The
SuiteOptions (tags, hooks, parallel flag) do not influence matching,
expansion or coercion. Go stores parameterTypes in a map whose
iteration order is unspecified; it is modelled as an association list
in insertion order (the claims proved below do not depend on the
order of distinct tokens). -/
structure Suite where
  steps : List stepDef
  parameterTypes : List (String × List String)

/-- Append one fragment to a token's fragment list, creating the entry
on first use (the map update parameterTypes[from] = append(...)). -/
def mapAppend (m : List (String × List String)) (k v : String) :
    List (String × List String) :=
  match m with
  | [] => [(k, [v])]
  | (k', vs) :: rest =>
    if k' == k then (k', vs ++ [v]) :: rest else (k', vs) :: mapAppend rest k v

/-- Suite.AddParameterTypes: register each fragment for the token. The
regexp.Compile validation panics only for fragments that do not
compile; every fragment registered in the verified scenarios compiles,
so the check is not modelled. -/
def AddParameterTypes (s : Suite) (fromTok : String) (toL : List String) : Suite :=
  toL.foldl (fun s t => { s with parameterTypes := mapAppend s.parameterTypes fromTok t }) s

/-- gobdd.NewSuite with no option closures: empty step registry and the
four default parameter types, registered in source order. -/
def NewSuite : Suite :=
  let s : Suite := { steps := [], parameterTypes := [] }
  let s := AddParameterTypes s "{int}" ["(\\d)"]
  let s := AddParameterTypes s "{float}" ["([-+]?\\d*\\.?\\d*)"]
  let s := AddParameterTypes s "{word}" ["([\\d\\w]+)"]
  AddParameterTypes s "{text}" ["\"([\\d\\w\\-\\s]+)\"", "\x27([\\d\\w\\-\\s]+)\x27"]

/-- Suite.applyParameterTypes: the result starts with the original
pattern; then, for every registered token and each of its fragments,
if the pattern contains the token, the pattern with all occurrences of
the token replaced by that fragment is appended. -/
def applyParameterTypes (s : Suite) (expr : String) : List String :=
  s.parameterTypes.foldl
    (fun exprs p =>
      p.2.foldl
        (fun exprs t =>
          if hasSubstring expr p.1 then exprs ++ [goReplaceAll expr p.1 t] else exprs)
        exprs)
    [expr]

/-- Suite.AddStep: expand the pattern through the parameter types and
append one compiled definition per resulting pattern, in order.
validateStepFunc panics only for callables without a leading context
parameter; GoFunc handles model validated callables, so the check
always passes. regexp.MustCompile is the external compiler, passed in
as a function. -/
def AddStep (compile : String → Regexp) (s : Suite) (expr : String) (step : GoFunc) : Suite :=
  (applyParameterTypes s expr).foldl
    (fun s e => { s with steps := s.steps ++ [{ expr := compile e, f := step }] })
    s

/-- The transparent reference value of applyParameterTypes beyond the
original pattern: all fragments of every contained token, in registry
order. -/
def templateVariants (pts : List (String × List String)) (expr : String) : List String :=
  ((pts.filter (fun p => hasSubstring expr p.1)).map
    (fun p => p.2.map (fun t => goReplaceAll expr p.1 t))).flatten

/-! ### Argument coercion and step invocation -/

/-- gobdd.paramType: convert one captured group to the declared
parameter kind. String targets get the bytes as a string; Int targets
get strconv.Atoi with the error discarded; Float32 targets get
float32(ParseFloat(s, 32)); Float64 targets get ParseFloat(s, 32) - the
source passes bitSize 32, not 64, in the Float64 branch; every other
kind keeps the raw captured bytes. The four kind tests in the source
are mutually exclusive ifs, rendered as a match. -/
def paramType (param : String) (inKind : GoKind) : GoValue :=
  match inKind with
  | .string => .str param
  | .int => .int (goAtoi param)
  | .float32 => .f32 param
  | .float64 => .f64 param 32
  | .other => .bytes param

/-- What stepDef.run(ctx, params) does up to its deferred recover: the
arity check panics (the error) before the callable is touched;
otherwise the context plus the coerced parameters form the argument
list passed to d.Call. The dead in-loop bound check of the source
(len(params) < i+1 never holds) is not represented. -/
def stepDefRunInner (d : stepDef) (params : List String) : Except String (List GoValue) :=
  if params.length + 1 ≠ d.f.numIn then
    .error ("the step function " ++ toString d.f.id ++ " accepts " ++
      toString d.f.numIn ++ " arguments but " ++ toString (params.length + 1) ++ " received")
  else
    .ok (.ctx :: (params.zip d.f.inKinds).map (fun p => paramType p.1 p.2))

/-- The observable outcome of stepDef.run: the argument list the
callable was invoked with (none when it was never invoked), and the
error propagated out of run. -/
structure RunStepRes where
  called : Option (List GoValue)
  surfaced : Option String
deriving Repr, DecidableEq

/-- gobdd.stepDef.run: the deferred recover at the top of run catches
any panic and its handler body is empty, so run always returns
normally and no error leaves it. -/
def stepDefRun (d : stepDef) (params : List String) : RunStepRes :=
  match stepDefRunInner d params with
  | .ok args => { called := some args, surfaced := none }
  | .error _ => { called := none, surfaced := none }

/-! ### The suite's scenario and step loops -/

/-- A parsed Gherkin step (messages.Step) as the engine reads it:
keyword, literal text, and an opaque source location. -/
structure MStep where
  keyword : String
  text : String
  location : Nat
deriving Repr, DecidableEq

/-- gobdd.Suite.runStep: resolve the definition and run it; a failed
resolution panics with a message carrying the keyword and text, and the
panic (Except.error) propagates out of runStep unrecovered. The ok-none
case is the Go zero-value definition, whose nil regexp would fault; it
cannot arise when some registered pattern matches with a positive
FindAll count. The before and after step hooks mutate only the context
and are not represented. -/
def runStep (s : Suite) (step : MStep) : Except String RunStepRes :=
  match findStepDef s.steps step.text with
  | .error _ =>
    .error ("cannot find step definition for step: " ++ step.keyword ++ step.text)
  | .ok none =>
    .error "runtime error: invalid memory address or nil pointer dereference"
  | .ok (some d) =>
    .ok (stepDefRun d ((d.expr.findSubmatch step.text).drop 1))

/-- A parsed scenario as gobdd.runScenario consumes it in the plain
(no examples, no background) path. -/
structure MScenario where
  steps : List MStep
deriving Repr, DecidableEq

/-- The step loop of gobdd.runScenario for a plain scenario: every step
is run unconditionally; a panic escaping runStep aborts the loop. -/
def runScenarioSteps (s : Suite) : List MStep → Except String Unit
  | [] => .ok ()
  | st :: rest =>
    match runStep s st with
    | .error m => .error m
    | .ok _ => runScenarioSteps s rest

/-- The scenario loop of gobdd.runFeature, instrumented with the number
of scenarios entered: a panic escaping a scenario propagates out of
runFeature (nothing recovers it), so the scenarios after it are never
entered. -/
def runFeatureScenarios (s : Suite) : List MScenario → Nat × Option String
  | [] => (0, none)
  | scn :: rest =>
    match runScenarioSteps s scn.steps with
    | .error m => (1, some m)
    | .ok _ =>
      let p := runFeatureScenarios s rest
      (p.1 + 1, p.2)

/-! ### Scenario outline expansion -/

/-- messages.TableRow: the cell values of one example row. -/
structure TableRow where
  cells : List String
deriving Repr, DecidableEq

/-- messages.Examples: the header row naming the placeholders and the
body rows of substitution values. -/
structure Examples where
  tableHeader : TableRow
  tableBody : List TableRow
deriving Repr, DecidableEq

/-- gobdd.getRegexpForVar: a cell value that Atoi accepts synthesizes
the digit fragment; otherwise one that ParseFloat(v, 32) accepts
synthesizes the signed-float fragment; anything else the capture-all
fragment. -/
def getRegexpForVar (v : String) : String :=
  if goAtoiOk v then "(\\d+)"
  else if goParseFloat32Ok v then "([+-]?([0-9]*[.])?[0-9]+)"
  else "(.*)"

/-- gobdd.Suite.stepFromExample: fold over the placeholders in header
order, replacing each placeholder in the step text with the row's cell
value and in the pattern with the fragment synthesized from that value.
The source indexes row.Cells[i] unchecked (it would panic on a short
row); here a short row reads "" and the theorems assume rows as long as
the header. -/
def stepFromExample (stepName : String) (row : TableRow) (placeholders : List String) :
    String × String :=
  placeholders.enum.foldl
    (fun acc p =>
      let cell := row.cells.getD p.1 ""
      (goReplaceAll acc.1 p.2 cell, goReplaceAll acc.2 p.2 (getRegexpForVar cell)))
    (stepName, stepName)

/-- The row loop of gobdd.Suite.stepsFromExamples: substitute the row
into the text and pattern; a row whose substituted text resolves to no
definition is skipped (the continue); otherwise the pattern is
registered against the found definition's callable and the cloned step
(location, keyword, new text - the DocString and DataTable are not
cloned, as the source's TODO notes) is emitted. The ok-none case is the
Go zero-value definition, whose nil callable would make the AddStep
validation panic; it cannot arise when resolution succeeds with a
positive FindAll count, and is rendered as an empty continuation. -/
def stepsFromExamplesLoop (compile : String → Regexp) (s : Suite) (src : MStep)
    (placeholders : List String) : List TableRow → Suite × List MStep
  | [] => (s, [])
  | row :: rows =>
    let p := stepFromExample src.text row placeholders
    match findStepDef s.steps p.1 with
    | .error _ => stepsFromExamplesLoop compile s src placeholders rows
    | .ok none => (s, [])
    | .ok (some d) =>
      let s1 := AddStep compile s p.2 d.f
      let q := stepsFromExamplesLoop compile s1 src placeholders rows
      (q.1, { location := src.location, keyword := src.keyword, text := p.1 } :: q.2)

/-- The placeholder tokens of an example table: each header cell
wrapped in angle brackets (the placeholdersValues loop). -/
def anglePlaceholders (ex : Examples) : List String :=
  ex.tableHeader.cells.map (fun c => "<" ++ c ++ ">")

/-- gobdd.Suite.stepsFromExamples: placeholders are the header cells
wrapped in angle brackets, then the row loop. -/
def stepsFromExamples (compile : String → Regexp) (s : Suite) (src : MStep)
    (ex : Examples) : Suite × List MStep :=
  stepsFromExamplesLoop compile s src (anglePlaceholders ex) ex.tableBody

/-- The inner example loop of getOutlineStep for one outline step:
stepsList[i] accumulates the generated steps of every example table,
in table order, threading the suite. -/
def outlineRowsForStep (compile : String → Regexp) (s : Suite) (src : MStep) :
    List Examples → Suite × List MStep
  | [] => (s, [])
  | ex :: exs =>
    let p := stepsFromExamples compile s src ex
    let q := outlineRowsForStep compile p.1 src exs
    (q.1, p.2 ++ q.2)

/-- The outer step loop of getOutlineStep, building stepsList (one
generated-step list per outline step). -/
def outlineStepsLists (compile : String → Regexp) (s : Suite) :
    List MStep → List Examples → Suite × List (List MStep)
  | [], _ => (s, [])
  | st :: sts, exs =>
    let p := outlineRowsForStep compile s st exs
    let q := outlineStepsLists compile p.1 sts exs
    (q.1, p.2 :: q.2)

/-- The placeholder step an out-of-range read would fault on in Go. -/
def outOfRangeStep : MStep :=
  { keyword := "", text := "", location := 0 }

/-- The assembly loop of getOutlineStep: for each example table, for
each of its body-row indices ci, for each outline-step index si, emit
stepsList[si][ci]. The Go indexing panics when stepsList[si] is
shorter; here it reads outOfRangeStep, and the theorems assume every
generated row resolved so the index stays in range. -/
def outlineAssembly (steps : List MStep) (examples : List Examples)
    (stepsList : List (List MStep)) : List MStep :=
  (examples.map (fun ex =>
    ((List.range ex.tableBody.length).map (fun ci =>
      (List.range steps.length).map (fun si =>
        (stepsList.getD si []).getD ci outOfRangeStep))).flatten)).flatten

/-- gobdd.Suite.getOutlineStep: build stepsList threading the suite,
return nothing for an empty step list, otherwise assemble. -/
def getOutlineStep (compile : String → Regexp) (s : Suite) (steps : List MStep)
    (examples : List Examples) : Suite × List MStep :=
  let p := outlineStepsLists compile s steps examples
  if steps.isEmpty then (p.1, [])
  else (p.1, outlineAssembly steps examples p.2)

/-- The row-major expansion the specification describes for one example
table: for each body row in order, each outline step in order,
substituted with that row. -/
def outlineExpected (steps : List MStep) (ex : Examples) : List MStep :=
  (ex.tableBody.map (fun row =>
    steps.map (fun st =>
      { location := st.location, keyword := st.keyword,
        text := (stepFromExample st.text row (anglePlaceholders ex)).1 }))).flatten

/-- The multi-table reading of the claim: tables in order, each table
row-major with its own header. -/
def outlineClaimExpected (steps : List MStep) (examples : List Examples) : List MStep :=
  (examples.map (fun ex => outlineExpected steps ex)).flatten

/-! ### The models package: step and scenario execution records -/

/-- models.Result. -/
inductive Result
  | Passed
  | Failed
  | Skipped
deriving Repr, DecidableEq, BEq

/-- The iota value of each Result constant; Passed is 0, the zero value
of the underlying int. -/
def Result.code : Result → Int
  | .Passed => 0
  | .Failed => 1
  | .Skipped => 2

/-- models.StepExecution, with time.Time as a Nat-valued monotone clock
and the error as an optional message. -/
structure StepExecution where
  result : Result
  startTime : Nat
  endTime : Nat
  err : Option String
deriving Repr, DecidableEq

/-- The Go zero value of StepExecution: zero Result (Passed), zero
times, nil error. -/
def StepExecution.goZero : StepExecution :=
  { result := .Passed, startTime := 0, endTime := 0, err := none }

/-- What one s.Func.Call(args) does: returns a list of values (each nil,
an error, or a non-error non-nil value), or panics. -/
inductive RetVal
  | nilVal
  | errVal (msg : String)
  | otherVal
deriving Repr, DecidableEq

/-- The behavior of the callable bound to a step. -/
inductive CallOutcome
  | rets (vals : List RetVal)
  | panics (msg : String)
deriving Repr, DecidableEq

/-- models.Step.Run acting on the execution record. t1 and t2 are the
two time.Now() readings around the call. When the callable returns,
StartTime and EndTime are both recorded and the result is Passed for a
single nil return, Failed with the error for a single error return,
and Failed via the recovered in-function panic for any other return
shape. When the callable panics, the deferred recover records Failed
and the synthesized error, but the EndTime assignment was never
reached, so EndTime keeps its previous value. -/
def stepRun (call : CallOutcome) (t1 t2 : Nat) (ex : StepExecution) : StepExecution :=
  match call with
  | .panics msg =>
    { ex with startTime := t1, result := .Failed, err := some msg }
  | .rets vals =>
    let ex := { ex with startTime := t1, endTime := t2 }
    match vals with
    | [.nilVal] => { ex with result := .Passed }
    | [.errVal m] => { ex with result := .Failed, err := some m }
    | [.otherVal] =>
      { ex with result := .Failed, err := some "steps should only return a single error or nil" }
    | _ =>
      { ex with result := .Failed, err := some "steps should only return a single error or nil" }

/-- The Result a call behavior produces, independent of clock and prior
record. -/
def callResult : CallOutcome → Result
  | .rets [.nilVal] => .Passed
  | .rets _ => .Failed
  | .panics _ => .Failed

/-- models.Step, restricted to what Run and the scenario loop touch:
the document fields, the bound callable's behavior, and the execution
record. -/
structure ModelsStep where
  keyword : String
  text : String
  func : CallOutcome
  execution : StepExecution
deriving Repr, DecidableEq

/-- models.NewStep: the struct literal copies the document fields and
does not mention Execution, which therefore holds the Go zero value.
Modelled from the spec: Scheme.StepDefFor (models/scheme.go, not under
src/) resolves the step's definition; per the specification's Matcher
and StepDefinition contracts it only binds the callable and its
coerced arguments, leaving the ExecutionRecord untouched. -/
def NewStep (doc : MStep) (call : CallOutcome) : ModelsStep :=
  { keyword := doc.keyword, text := doc.text, func := call,
    execution := StepExecution.goZero }

/-- models.Scenario.Run: run the steps in order, stopping after the
first one whose recorded Result is not Passed; the remaining steps keep
their records untouched. The clock advances across calls. -/
def scenarioRun (clock : Nat) : List ModelsStep → List ModelsStep
  | [] => []
  | st :: rest =>
    let st1 := { st with execution := stepRun st.func clock (clock + 1) st.execution }
    if st1.execution.result = Result.Passed then st1 :: scenarioRun (clock + 2) rest
    else st1 :: rest

/-- The number of Step.Run invocations the scenario loop performs. -/
def scenarioRunCount (clock : Nat) : List ModelsStep → Nat
  | [] => 0
  | st :: rest =>
    let e := stepRun st.func clock (clock + 1) st.execution
    if e.result = Result.Passed then 1 + scenarioRunCount (clock + 2) rest else 1

/-! ### Concrete data for the verified scenarios -/

/-- regexp.MustCompile("I have {int} cucumbers"): RE2 treats the
malformed repetition operator braces as literal characters, so the
compiled program is the literal character sequence. -/
def regexIHaveIntLit : Regexp :=
  regexpOfItems (litItems "I have {int} cucumbers") []

/-- regexp.MustCompile of the expanded pattern "I have (\d) cucumbers":
a literal prefix, one capturing group holding a single digit class at
offset 7, and a literal suffix. -/
def regexIHaveDigit : Regexp :=
  regexpOfItems (litItems "I have " ++ [RItem.digit] ++ litItems " cucumbers") [(7, 1)]

/-- The external regexp.MustCompile restricted to the two patterns
AddStep compiles in the cucumber scenario. -/
def compileCucumber (e : String) : Regexp :=
  if e == "I have {int} cucumbers" then regexIHaveIntLit
  else if e == "I have (\\d) cucumbers" then regexIHaveDigit
  else regexpOfItems [] []

/-- The cucumber callable f(ctx, n int). -/
def fCucumber : GoFunc :=
  { inKinds := [GoKind.int], id := 42 }

/-- The default suite after AddStep("I have {int} cucumbers", f). -/
def cucumberSuite : Suite :=
  AddStep compileCucumber NewSuite "I have {int} cucumbers" fCucumber

/-- A regexp matching every text exactly once, capturing the whole
text (used to instantiate the abstract compiler in witnesses). -/
def wRegexAll : Regexp :=
  { matchString := fun _ => true, findAllLen := fun _ => 1,
    findSubmatch := fun s => [s] }

/-- A compiler mapping every pattern to the catch-all regexp. -/
def wCompileAll : String → Regexp := fun _ => wRegexAll

/-- A catch-all step definition. -/
def wDefAll : stepDef :=
  { expr := wRegexAll, f := { inKinds := [], id := 7 } }

/-- The outline step of the multiple-example-tables counterexample. -/
def cxOutlineStep : MStep :=
  { keyword := "When ", text := "I eat <count> apples", location := 3 }

/-- First example table: one row substituting 1. -/
def cxExample1 : Examples :=
  { tableHeader := { cells := ["count"] }, tableBody := [{ cells := ["1"] }] }

/-- Second example table: one row substituting 2. -/
def cxExample2 : Examples :=
  { tableHeader := { cells := ["count"] }, tableBody := [{ cells := ["2"] }] }

/-- A suite holding only the catch-all definition. -/
def cxSuite : Suite :=
  { steps := [wDefAll], parameterTypes := [] }

/-- A definition whose callable declares one int parameter after the
context (NumIn = 2). -/
def wDefArity : stepDef :=
  { expr := wRegexAll, f := { inKinds := [GoKind.int], id := 9 } }

end Gobdd

namespace Gobdd

theorem bestMatchCount_cons (d : stepDef) (l : List stepDef) (text : String) :
    bestMatchCount (d :: l) text =
      if stepMatches text d then max (stepCount text d) (bestMatchCount l text)
      else bestMatchCount l text := rfl

theorem le_bestMatchCount (text : String) :
    ∀ {l : List stepDef} {d : stepDef}, d ∈ l → stepMatches text d = true →
      stepCount text d ≤ bestMatchCount l text := by
  intro l
  induction l with
  | nil => intro d hd; cases hd
  | cons a l ih =>
    intro d hd hm
    rcases List.mem_cons.mp hd with h | h
    · subst h
      rw [bestMatchCount_cons, if_pos hm]
      exact Nat.le_max_left _ _
    · rw [bestMatchCount_cons]
      by_cases ha : stepMatches text a = true
      · rw [if_pos ha]
        exact Nat.le_trans (ih h hm) (Nat.le_max_right _ _)
      · rw [if_neg ha]
        exact ih h hm

theorem findStepDefLoop_no_improve (text : String) :
    ∀ (l : List stepDef) (st : FindState),
      (∀ d ∈ l, stepMatches text d = true → stepCount text d ≤ st.found) →
      findStepDefLoop text l st =
        { found := st.found, matched := st.matched || l.any (stepMatches text),
          sd := st.sd } := by
  intro l
  induction l with
  | nil => intro st _; simp [findStepDefLoop]
  | cons d rest ih =>
    intro st h
    by_cases hm : stepMatches text d = true
    · have hcnt : stepCount text d ≤ st.found := h d (List.mem_cons_self d rest) hm
      have hlt : ¬ st.found < stepCount text d := Nat.not_lt.mpr hcnt
      simp only [findStepDefLoop]
      rw [if_pos hm, if_neg hlt]
      rw [ih { st with matched := true }
        (fun e he hme => h e (List.mem_cons_of_mem d he) hme)]
      simp [List.any_cons, hm]
    · have hmf : stepMatches text d = false := by
        simpa using hm
      simp only [findStepDefLoop]
      rw [if_neg hm]
      rw [ih st (fun e he hme => h e (List.mem_cons_of_mem d he) hme)]
      simp [List.any_cons, hmf]

theorem findStepDefLoop_improve (text : String) :
    ∀ (l : List stepDef) (st : FindState),
      st.found < bestMatchCount l text →
      findStepDefLoop text l st =
        { found := bestMatchCount l text, matched := true,
          sd := l.find? (fun e => stepMatches text e &&
            stepCount text e == bestMatchCount l text) } := by
  intro l
  induction l with
  | nil =>
    intro st h
    simp [bestMatchCount] at h
  | cons d rest ih =>
    intro st h
    by_cases hm : stepMatches text d = true
    · have hbc : bestMatchCount (d :: rest) text
          = max (stepCount text d) (bestMatchCount rest text) := by
        rw [bestMatchCount_cons, if_pos hm]
      by_cases heq : stepCount text d = bestMatchCount (d :: rest) text
      · -- the head attains the overall best: it is selected and kept
        have hlt : st.found < stepCount text d := by
          rw [heq]
          exact h
        simp only [findStepDefLoop]
        rw [if_pos hm, if_pos hlt]
        have hrest : ∀ e ∈ rest, stepMatches text e = true →
            stepCount text e ≤ stepCount text d := by
          intro e he hme
          have h1 : stepCount text e ≤ bestMatchCount rest text :=
            le_bestMatchCount text he hme
          have h2 : bestMatchCount rest text ≤ bestMatchCount (d :: rest) text := by
            rw [hbc]
            exact Nat.le_max_right _ _
          omega
        rw [findStepDefLoop_no_improve text rest _ hrest]
        have hpd : (fun e => stepMatches text e &&
            stepCount text e == bestMatchCount (d :: rest) text) d = true := by
          simp [hm, heq]
        have hfind : (d :: rest).find? (fun e => stepMatches text e &&
            stepCount text e == bestMatchCount (d :: rest) text) = some d :=
          List.find?_cons_of_pos _ hpd
        rw [hfind]
        simp [← heq]
      · -- the head does not attain the best: the best lives in the tail
        have hle : stepCount text d ≤ bestMatchCount (d :: rest) text := by
          rw [hbc]
          exact Nat.le_max_left _ _
        have hdlt : stepCount text d < bestMatchCount (d :: rest) text :=
          Nat.lt_of_le_of_ne hle heq
        have hbr : bestMatchCount rest text = bestMatchCount (d :: rest) text := by
          rw [hbc] at hdlt ⊢
          omega
        have hpd : ¬ (fun e => stepMatches text e &&
            stepCount text e == bestMatchCount (d :: rest) text) d = true := by
          simp [hm, heq]
        have hfind : (d :: rest).find? (fun e => stepMatches text e &&
            stepCount text e == bestMatchCount (d :: rest) text)
            = rest.find? (fun e => stepMatches text e &&
              stepCount text e == bestMatchCount (d :: rest) text) :=
          List.find?_cons_of_neg _ hpd
        simp only [findStepDefLoop]
        rw [if_pos hm]
        by_cases hup : st.found < stepCount text d
        · rw [if_pos hup]
          have hst : stepCount text d < bestMatchCount rest text := by
            rw [hbr]
            exact hdlt
          rw [ih _ hst, hfind, hbr]
        · rw [if_neg hup]
          have hst : st.found < bestMatchCount rest text := by
            rw [hbr]
            exact h
          rw [ih { st with matched := true } hst, hfind, hbr]
    · have hbc : bestMatchCount (d :: rest) text = bestMatchCount rest text := by
        rw [bestMatchCount_cons, if_neg hm]
      have hpd : ¬ (fun e => stepMatches text e &&
          stepCount text e == bestMatchCount (d :: rest) text) d = true := by
        simp [hm]
      have hfind : (d :: rest).find? (fun e => stepMatches text e &&
          stepCount text e == bestMatchCount (d :: rest) text)
          = rest.find? (fun e => stepMatches text e &&
            stepCount text e == bestMatchCount (d :: rest) text) :=
        List.find?_cons_of_neg _ hpd
      simp only [findStepDefLoop]
      rw [if_neg hm]
      rw [ih st (by rw [hbc] at h; exact h), hfind, hbc]

theorem bestMatchCount_attained (text : String) :
    ∀ (l : List stepDef), 1 ≤ bestMatchCount l text →
      ∃ e ∈ l, stepMatches text e = true ∧
        stepCount text e = bestMatchCount l text := by
  intro l
  induction l with
  | nil => intro h; simp [bestMatchCount] at h
  | cons a l ih =>
    intro h
    by_cases hma : stepMatches text a = true
    · rw [bestMatchCount_cons, if_pos hma] at h ⊢
      rcases Nat.le_total (bestMatchCount l text) (stepCount text a) with hle | hle
      · exact ⟨a, List.mem_cons_self a l, hma, (Nat.max_eq_left hle).symm⟩
      · have hbl : 1 ≤ bestMatchCount l text := by
          rw [Nat.max_eq_right hle] at h
          exact h
        obtain ⟨e, he, hme, hce⟩ := ih hbl
        exact ⟨e, List.mem_cons_of_mem a he, hme, by rw [hce, Nat.max_eq_right hle]⟩
    · rw [bestMatchCount_cons, if_neg hma] at h ⊢
      obtain ⟨e, he, hme, hce⟩ := ih h
      exact ⟨e, List.mem_cons_of_mem a he, hme, hce⟩

/-- Claim C1: findStepDef considers definitions in registration order,
keeps only those whose pattern matches the text anywhere, and returns
the definition with the strictly greatest number of non-overlapping
matches; on equal counts the earlier-registered definition wins (it is
the first one attaining the best count), and a text matched by exactly
one definition resolves to that definition. The hypothesis hcons states
the regexp library fact that MatchString holds iff FindAll finds at
least one match. -/
theorem findStepDef_selects_first_best (steps : List stepDef) (text : String)
    (hcons : ∀ d ∈ steps, stepMatches text d = true ↔ 1 ≤ stepCount text d)
    (hex : ∃ d ∈ steps, stepMatches text d = true) :
    ∃ d, findStepDef steps text = .ok (some d)
      ∧ stepMatches text d = true
      ∧ stepCount text d = bestMatchCount steps text
      ∧ (∀ e ∈ steps, stepMatches text e = true → stepCount text e ≤ stepCount text d)
      ∧ steps.find? (fun e => stepMatches text e &&
          stepCount text e == bestMatchCount steps text) = some d
      ∧ (∀ e, steps.filter (fun x => stepMatches text x) = [e] → d = e) := by
  obtain ⟨d0, hd0, hm0⟩ := hex
  have hpos : 1 ≤ bestMatchCount steps text := by
    have h1 : 1 ≤ stepCount text d0 := (hcons d0 hd0).mp hm0
    exact Nat.le_trans h1 (le_bestMatchCount text hd0 hm0)
  have hloop := findStepDefLoop_improve text steps
    { found := 0, matched := false, sd := none } (by simpa using hpos)
  obtain ⟨d, hd⟩ : ∃ d, steps.find? (fun e => stepMatches text e &&
      stepCount text e == bestMatchCount steps text) = some d := by
    obtain ⟨e, he, hme, hce⟩ := bestMatchCount_attained text steps hpos
    cases hres : steps.find? (fun e => stepMatches text e &&
        stepCount text e == bestMatchCount steps text) with
    | some d => exact ⟨d, rfl⟩
    | none =>
      exact absurd (by simp [hme, hce] : (fun e => stepMatches text e &&
          stepCount text e == bestMatchCount steps text) e = true)
        (List.find?_eq_none.mp hres e he)
  have hp := List.find?_some hd
  simp only [Bool.and_eq_true, beq_iff_eq] at hp
  refine ⟨d, ?_, hp.1, hp.2, ?_, hd, ?_⟩
  · unfold findStepDef
    rw [hloop, hd]
    simp
  · intro e he hme
    rw [hp.2]
    exact le_bestMatchCount text he hme
  · intro e hfil
    have hdmem : d ∈ steps := List.mem_of_find?_eq_some hd
    have hdfil : d ∈ steps.filter (fun x => stepMatches text x) :=
      List.mem_filter.mpr ⟨hdmem, hp.1⟩
    rw [hfil] at hdfil
    simpa using hdfil

theorem findStepDef_selects_first_best_witness :
    ∃ d, findStepDef [wDef0, wDef1] "x x" = .ok (some d)
      ∧ stepMatches "x x" d = true
      ∧ stepCount "x x" d = bestMatchCount [wDef0, wDef1] "x x" := by
  obtain ⟨d, h1, h2, h3, _⟩ :=
    findStepDef_selects_first_best [wDef0, wDef1] "x x"
      (by
        intro d hd
        rcases List.mem_cons.mp hd with h | h
        · subst h; simp [stepMatches, stepCount, wDef0, wRegexNoMatch]
        · rcases List.mem_cons.mp h with h' | h'
          · subst h'; simp [stepMatches, stepCount, wDef1, wRegexTwo]
          · cases h')
      ⟨wDef1, by simp, by simp [stepMatches, wDef1, wRegexTwo]⟩
  exact ⟨d, h1, h2, h3⟩

/-- Claim C2 (evaluating the code at the failing input): on the default
suite, registering "I have {int} cucumbers" compiles the original
pattern and the single-digit expansion "I have (\d) cucumbers" - the
default {int} fragment is (\d), one digit - so the step text
"I have 42 cucumbers" matches neither definition, resolution fails and
runStep panics instead of invoking f with 42. The single-digit text
"I have 4 cucumbers" does resolve, captures "4" and coerces it to the
integer 4, confirming the rest of the pipeline. -/
theorem int_template_rejects_multi_digit :
    applyParameterTypes NewSuite "I have {int} cucumbers"
      = ["I have {int} cucumbers", "I have (\\d) cucumbers"]
    ∧ findStepDef cucumberSuite.steps "I have 42 cucumbers"
      = .error "cannot find step definition"
    ∧ runStep cucumberSuite { keyword := "Given ", text := "I have 42 cucumbers", location := 0 }
      = .error "cannot find step definition for step: Given I have 42 cucumbers"
    ∧ findStepDef cucumberSuite.steps "I have 4 cucumbers"
      = .ok (some { expr := regexIHaveDigit, f := fCucumber })
    ∧ regexIHaveDigit.findSubmatch "I have 4 cucumbers" = ["I have 4 cucumbers", "4"]
    ∧ stepDefRun { expr := regexIHaveDigit, f := fCucumber } ["4"]
      = { called := some [GoValue.ctx, GoValue.int 4], surfaced := none } := by
  exact ⟨rfl, rfl, rfl, rfl, rfl, rfl⟩

/-- Claim C3 (counterexample): expanding "I have {int} cucumbers" on
the default suite yields two patterns, not one per registered fragment
of {int} (one fragment is registered): the original pattern is kept and
the variant appended, and registering the pattern adds two step
definitions. -/
theorem applyParameterTypes_keeps_original_cx :
    applyParameterTypes NewSuite "I have {int} cucumbers"
      = ["I have {int} cucumbers", "I have (\\d) cucumbers"]
    ∧ (applyParameterTypes NewSuite "I have {int} cucumbers").length ≠ 1
    ∧ (AddStep compileCucumber NewSuite "I have {int} cucumbers" fCucumber).steps.length = 2 := by
  exact ⟨rfl, by decide, rfl⟩

/-- Claim C4 (counterexample): with two example tables of one row each,
the assembly loop indexes each per-step generated list with the row
index local to the table, so the block emitted for the second table
repeats the first table's substitution: both emitted steps read
"I eat 1 apples", not the row-major expansion the claim states. -/
theorem getOutlineStep_multi_table_cx :
    ((getOutlineStep wCompileAll cxSuite [cxOutlineStep] [cxExample1, cxExample2]).2).map
        (fun m => m.text)
      = ["I eat 1 apples", "I eat 1 apples"]
    ∧ (getOutlineStep wCompileAll cxSuite [cxOutlineStep] [cxExample1, cxExample2]).2
        ≠ outlineClaimExpected [cxOutlineStep] [cxExample1, cxExample2] := by
  exact ⟨rfl, by decide⟩

theorem stepRun_result (c : CallOutcome) (t1 t2 : Nat) (ex : StepExecution) :
    (stepRun c t1 t2 ex).result = callResult c := by
  cases c with
  | panics msg => rfl
  | rets vals =>
    match vals with
    | [] => rfl
    | v :: vs => cases v <;> cases vs <;> rfl

/-- Claim C5: the scenario loop runs steps strictly in order and halts
after the first step whose recorded Result is not Passed: the number of
Step.Run invocations is the length of the passing prefix plus one,
capped at the step count, and every step past that point keeps its
record untouched; concretely, behaviors yielding
[Passed, Passed, Failed, Passed] execute exactly 3 steps. -/
theorem scenarioRun_halts_at_first_non_passed :
    (∀ (clock : Nat) (steps : List ModelsStep),
      scenarioRunCount clock steps
        = min steps.length
            (((steps.map (fun st => callResult st.func)).takeWhile
                (fun r => decide (r = Result.Passed))).length + 1)
      ∧ (scenarioRun clock steps).drop (scenarioRunCount clock steps)
          = steps.drop (scenarioRunCount clock steps))
    ∧ scenarioRunCount 0
        [{ keyword := "a", text := "a", func := .rets [RetVal.nilVal], execution := .goZero },
         { keyword := "b", text := "b", func := .rets [RetVal.nilVal], execution := .goZero },
         { keyword := "c", text := "c", func := .rets [RetVal.errVal "boom"], execution := .goZero },
         { keyword := "d", text := "d", func := .rets [RetVal.nilVal], execution := .goZero }]
      = 3 := by
  constructor
  · intro clock steps
    induction steps generalizing clock with
    | nil => constructor <;> simp [scenarioRunCount, scenarioRun]
    | cons st rest ih =>
      have hres := stepRun_result st.func clock (clock + 1) st.execution
      by_cases hp : (stepRun st.func clock (clock + 1) st.execution).result = Result.Passed
      · have hcall : decide (callResult st.func = Result.Passed) = true := by
          rw [← hres]
          exact decide_eq_true hp
        have hcnt : scenarioRunCount clock (st :: rest)
            = scenarioRunCount (clock + 2) rest + 1 := by
          simp only [scenarioRunCount]
          rw [if_pos hp]
          omega
        constructor
        · rw [hcnt, (ih (clock + 2)).1]
          simp [List.takeWhile_cons, hcall]
          omega
        · rw [hcnt]
          simp only [scenarioRun]
          simp only [hp, if_pos]
          rw [List.drop_succ_cons, List.drop_succ_cons]
          exact (ih (clock + 2)).2
      · have hcall : decide (callResult st.func = Result.Passed) = false := by
          rw [← hres]
          exact decide_eq_false hp
        have hcnt : scenarioRunCount clock (st :: rest) = 1 := by
          simp only [scenarioRunCount]
          rw [if_neg hp]
        constructor
        · rw [hcnt]
          simp [List.takeWhile_cons, hcall]
        · rw [hcnt]
          simp [scenarioRun, hp]
  · decide

theorem findStepDefLoop_unmatched (text : String) :
    ∀ (l : List stepDef) (st : FindState),
      (∀ d ∈ l, stepMatches text d = false) → findStepDefLoop text l st = st := by
  intro l
  induction l with
  | nil => intro st _; simp [findStepDefLoop]
  | cons d rest ih =>
    intro st h
    have hd : stepMatches text d = false := h d (List.mem_cons_self d rest)
    simp only [findStepDefLoop]
    rw [if_neg (by simp [hd])]
    exact ih st (fun e he => h e (List.mem_cons_of_mem d he))

/-- Claim C6 (amended): when no registered definition matches a step's
text, findStepDef returns the constant error "cannot find step
definition" (which does not carry the step text); runStep then panics
with a message carrying the keyword and text, and since nothing
recovers the panic, it aborts the scenario loop and the remaining
scenarios of the feature are never entered. -/
theorem unmatched_step_panics (s : Suite) (step : MStep)
    (h : ∀ d ∈ s.steps, stepMatches step.text d = false) :
    findStepDef s.steps step.text = .error "cannot find step definition"
    ∧ runStep s step
        = .error ("cannot find step definition for step: " ++ step.keyword ++ step.text)
    ∧ ∀ (more : List MStep) (rest : List MScenario),
        runFeatureScenarios s ({ steps := step :: more } :: rest)
          = (1, some ("cannot find step definition for step: " ++ step.keyword ++ step.text)) := by
  have hfind : findStepDef s.steps step.text = .error "cannot find step definition" := by
    unfold findStepDef
    rw [findStepDefLoop_unmatched step.text s.steps _ h]
    simp
  have hrun : runStep s step
      = .error ("cannot find step definition for step: " ++ step.keyword ++ step.text) := by
    unfold runStep
    rw [hfind]
  refine ⟨hfind, hrun, ?_⟩
  intro more rest
  simp only [runFeatureScenarios, runScenarioSteps]
  rw [hrun]

theorem unmatched_step_panics_witness :
    findStepDef NewSuite.steps "xyz" = .error "cannot find step definition"
    ∧ runStep NewSuite { keyword := "Given ", text := "xyz", location := 0 }
        = .error "cannot find step definition for step: Given xyz" := by
  obtain ⟨h1, h2, _⟩ := unmatched_step_panics NewSuite
    { keyword := "Given ", text := "xyz", location := 0 }
    (by
      intro d hd
      rw [show NewSuite.steps = ([] : List stepDef) from rfl] at hd
      simp at hd)
  exact ⟨h1, h2⟩

/-- Claim C6 (counterexample to the claim as stated): with no
definitions registered, resolving "xyz" yields the constant error
"cannot find step definition", which does not contain the step text;
running a feature of two scenarios whose first step is "xyz" enters
only the first scenario and leaves the panic pending - the second
scenario never runs and the suite run is aborted, not continued. -/
theorem unmatched_step_aborts_cx :
    findStepDef NewSuite.steps "xyz" = .error "cannot find step definition"
    ∧ hasSubstring "cannot find step definition" "xyz" = false
    ∧ runFeatureScenarios NewSuite
        [{ steps := [{ keyword := "Given ", text := "xyz", location := 0 }] },
         { steps := [{ keyword := "Then ", text := "ok", location := 1 }] }]
      = (1, some "cannot find step definition for step: Given xyz") := by
  exact ⟨rfl, rfl, rfl⟩

/-- Claim C7 (amended): when the captured-group count plus one differs
from the callable's declared arity, stepDef.run panics with the
descriptive arity message before the callable is invoked - but the
deferred recover at the top of run has an empty handler, so the error
is swallowed: run returns normally, nothing is invoked and no error is
surfaced or recorded anywhere. -/
theorem arity_mismatch_swallowed (d : stepDef) (params : List String)
    (h : params.length + 1 ≠ d.f.numIn) :
    stepDefRunInner d params
      = .error ("the step function " ++ toString d.f.id ++ " accepts " ++
          toString d.f.numIn ++ " arguments but " ++ toString (params.length + 1) ++ " received")
    ∧ (stepDefRun d params).called = none
    ∧ (stepDefRun d params).surfaced = none := by
  have hinner : stepDefRunInner d params
      = .error ("the step function " ++ toString d.f.id ++ " accepts " ++
          toString d.f.numIn ++ " arguments but " ++ toString (params.length + 1) ++ " received") := by
    unfold stepDefRunInner
    rw [if_pos h]
  refine ⟨hinner, ?_, ?_⟩ <;>
    · unfold stepDefRun
      rw [hinner]

theorem arity_mismatch_swallowed_witness :
    stepDefRunInner wDefArity []
      = .error "the step function 9 accepts 2 arguments but 1 received"
    ∧ (stepDefRun wDefArity []).called = none
    ∧ (stepDefRun wDefArity []).surfaced = none := by
  obtain ⟨h1, h2, h3⟩ := arity_mismatch_swallowed wDefArity [] (by decide)
  exact ⟨h1, h2, h3⟩

/-- Claim C7 (counterexample to the claim as stated): for a callable of
declared arity 2 invoked with zero captured groups, the arity panic is
produced internally but run's outer result records no invocation and no
surfaced error - the error is silently dropped. -/
theorem arity_error_swallowed_cx :
    stepDefRunInner wDefArity []
      = .error "the step function 9 accepts 2 arguments but 1 received"
    ∧ stepDefRun wDefArity [] = { called := none, surfaced := none } := by
  exact ⟨rfl, rfl⟩

/-- Claim C8 (evaluating the code at the failing input): coercion
passes strings through, parses ints, parses float32 at 32 bits and
passes unknown kinds through as raw bytes as claimed, but the Float64
branch calls strconv.ParseFloat with bitSize 32, not 64: the float64
argument for "0.1" is the 32-bit rounding of 0.1 widened to float64,
which differs from the 64-bit parse the claim describes. -/
theorem paramType_float64_uses_bitsize_32 :
    paramType "0.1" GoKind.float64 = GoValue.f64 "0.1" 32
    ∧ GoValue.f64 "0.1" 32 ≠ GoValue.f64 "0.1" 64
    ∧ paramType "abc" GoKind.string = GoValue.str "abc"
    ∧ paramType "42" GoKind.int = GoValue.int 42
    ∧ paramType "1.5" GoKind.float32 = GoValue.f32 "1.5"
    ∧ paramType "raw" GoKind.other = GoValue.bytes "raw" := by
  exact ⟨rfl, by decide, rfl, by decide, rfl, rfl⟩

/-- Claim C9 (counterexample): when the callable panics, the deferred
recover marks the step Failed but the EndTime assignment was never
reached, so a fresh step run at StartTime 5 keeps EndTime 0 and
EndTime < StartTime, violating the claimed invariant. -/
theorem stepRun_panic_endtime_cx :
    (stepRun (.panics "boom") 5 6 StepExecution.goZero).endTime
      < (stepRun (.panics "boom") 5 6 StepExecution.goZero).startTime := by
  decide

/-- Claim C9 (amended): Step.Run always leaves Result equal to Passed
or Failed; whenever the callable returns (with any return shape),
StartTime and EndTime are the two clock readings and EndTime is no
earlier than StartTime; but when the callable panics, the recover
records Failed and the error while EndTime keeps its previous value,
so EndTime can precede StartTime. -/
theorem stepRun_record (c : CallOutcome) (t1 t2 : Nat) (ex : StepExecution)
    (h : t1 ≤ t2) :
    ((stepRun c t1 t2 ex).result = Result.Passed ∨ (stepRun c t1 t2 ex).result = Result.Failed)
    ∧ (∀ vals, c = CallOutcome.rets vals →
        (stepRun c t1 t2 ex).startTime = t1 ∧ (stepRun c t1 t2 ex).endTime = t2
          ∧ (stepRun c t1 t2 ex).startTime ≤ (stepRun c t1 t2 ex).endTime)
    ∧ (∀ msg, c = CallOutcome.panics msg →
        (stepRun c t1 t2 ex).result = Result.Failed
          ∧ (stepRun c t1 t2 ex).err = some msg
          ∧ (stepRun c t1 t2 ex).startTime = t1
          ∧ (stepRun c t1 t2 ex).endTime = ex.endTime) := by
  cases c with
  | panics msg =>
    refine ⟨Or.inr rfl, ?_, ?_⟩
    · intro vals hv
      cases hv
    · intro m hm
      injection hm with h'
      subst h'
      exact ⟨rfl, rfl, rfl, rfl⟩
  | rets vals =>
    refine ⟨?_, ?_, ?_⟩
    · match vals with
      | [] => exact Or.inr rfl
      | v :: vs =>
        cases v <;> cases vs <;> first | exact Or.inl rfl | exact Or.inr rfl
    · intro vs _
      have h1 : (stepRun (CallOutcome.rets vals) t1 t2 ex).startTime = t1 := by
        match vals with
        | [] => rfl
        | v :: vs2 => cases v <;> cases vs2 <;> rfl
      have h2 : (stepRun (CallOutcome.rets vals) t1 t2 ex).endTime = t2 := by
        match vals with
        | [] => rfl
        | v :: vs2 => cases v <;> cases vs2 <;> rfl
      refine ⟨h1, h2, ?_⟩
      rw [h1, h2]
      exact h
    · intro m hm
      cases hm

theorem stepRun_record_witness :
    ((stepRun (.rets [RetVal.nilVal]) 1 2 StepExecution.goZero).result = Result.Passed
      ∨ (stepRun (.rets [RetVal.nilVal]) 1 2 StepExecution.goZero).result = Result.Failed)
    ∧ (stepRun (.rets [RetVal.nilVal]) 1 2 StepExecution.goZero).startTime
        ≤ (stepRun (.rets [RetVal.nilVal]) 1 2 StepExecution.goZero).endTime := by
  obtain ⟨h1, h2, _⟩ := stepRun_record (.rets [RetVal.nilVal]) 1 2 StepExecution.goZero (by decide)
  exact ⟨h1, (h2 [RetVal.nilVal] rfl).2.2⟩

/-- Claim C10: the Go zero value of Result is Passed (its iota code is
0 and no other constant has code 0), a freshly constructed Step's
Execution therefore records Passed before Run is ever called, and a
step that ran and passed records the same Result, so the two are
indistinguishable by Result alone. -/
theorem zero_result_passed :
    StepExecution.goZero.result = Result.Passed
    ∧ Result.code Result.Passed = 0
    ∧ (∀ r : Result, Result.code r = 0 → r = Result.Passed)
    ∧ (∀ (doc : MStep) (call : CallOutcome), (NewStep doc call).execution = StepExecution.goZero)
    ∧ (stepRun (.rets [RetVal.nilVal]) 1 2 StepExecution.goZero).result = Result.Passed := by
  refine ⟨rfl, rfl, ?_, fun _ _ => rfl, rfl⟩
  intro r h
  cases r with
  | Passed => rfl
  | Failed => simp [Result.code] at h
  | Skipped => simp [Result.code] at h

theorem zero_result_passed_witness :
    StepExecution.goZero.result = Result.Passed ∧ Result.Passed = Result.Passed :=
  ⟨zero_result_passed.1, zero_result_passed.2.2.1 Result.Passed rfl⟩

theorem templateVariants_cons (p : String × List String)
    (ps : List (String × List String)) (expr : String) :
    templateVariants (p :: ps) expr
      = (if hasSubstring expr p.1 then p.2.map (fun t => goReplaceAll expr p.1 t) else [])
        ++ templateVariants ps expr := by
  unfold templateVariants
  rw [List.filter_cons]
  by_cases hc : hasSubstring expr p.1 = true
  · simp [hc]
  · simp [hc]

theorem applyParameterTypes_inner (expr tok : String) (fr : List String) :
    ∀ acc : List String,
      fr.foldl (fun exprs t =>
          if hasSubstring expr tok then exprs ++ [goReplaceAll expr tok t] else exprs) acc
        = acc ++ (if hasSubstring expr tok then fr.map (fun t => goReplaceAll expr tok t) else []) := by
  induction fr with
  | nil => intro acc; simp
  | cons t ts ih =>
    intro acc
    by_cases hc : hasSubstring expr tok = true
    · simp only [List.foldl_cons, if_pos hc] at ih ⊢
      rw [ih]
      simp
    · simp only [List.foldl_cons, if_neg hc] at ih ⊢
      rw [ih]

theorem applyParameterTypes_outer (expr : String) :
    ∀ (pts : List (String × List String)) (acc : List String),
      pts.foldl
          (fun exprs p =>
            p.2.foldl
              (fun exprs t =>
                if hasSubstring expr p.1 then exprs ++ [goReplaceAll expr p.1 t] else exprs)
              exprs)
          acc
        = acc ++ templateVariants pts expr := by
  intro pts
  induction pts with
  | nil => intro acc; simp [templateVariants]
  | cons p ps ih =>
    intro acc
    simp only [List.foldl_cons]
    rw [applyParameterTypes_inner expr p.1 p.2 acc, ih, templateVariants_cons,
      List.append_assoc]

theorem applyParameterTypes_eq (s : Suite) (expr : String) :
    applyParameterTypes s expr = expr :: templateVariants s.parameterTypes expr := by
  unfold applyParameterTypes
  rw [applyParameterTypes_outer expr s.parameterTypes [expr]]
  rfl

theorem AddStep_steps (compile : String → Regexp) (s : Suite) (expr : String) (f : GoFunc) :
    (AddStep compile s expr f).steps
      = s.steps ++ (applyParameterTypes s expr).map (fun e => { expr := compile e, f := f }) := by
  unfold AddStep
  generalize applyParameterTypes s expr = l
  induction l generalizing s with
  | nil => simp
  | cons e es ih =>
    simp only [List.foldl_cons, List.map_cons]
    rw [ih { s with steps := s.steps ++ [{ expr := compile e, f := f }] }]
    simp

/-- Claim C3 (amended): expansion returns the original pattern followed
by one variant per fragment of every contained token (so a pattern with
no registered token expands to the singleton of itself, as claimed, but
a pattern containing a token with n fragments expands to 1 + n
patterns, not n), and registering a pattern adds one step definition
per expansion result, the original included. -/
theorem applyParameterTypes_spec (s : Suite) (expr : String) :
    applyParameterTypes s expr = expr :: templateVariants s.parameterTypes expr
    ∧ ((∀ p ∈ s.parameterTypes, hasSubstring expr p.1 = false) →
        applyParameterTypes s expr = [expr])
    ∧ ∀ (compile : String → Regexp) (f : GoFunc),
        (AddStep compile s expr f).steps.length
          = s.steps.length + (applyParameterTypes s expr).length := by
  refine ⟨applyParameterTypes_eq s expr, ?_, ?_⟩
  · intro h
    rw [applyParameterTypes_eq s expr]
    have hfil : s.parameterTypes.filter (fun p => hasSubstring expr p.1) = [] :=
      List.filter_eq_nil_iff.mpr (fun p hp => by simp [h p hp])
    unfold templateVariants
    rw [hfil]
    rfl
  · intro compile f
    rw [AddStep_steps compile s expr f]
    simp

theorem applyParameterTypes_spec_witness :
    applyParameterTypes NewSuite "no tokens here"
      = "no tokens here" :: templateVariants NewSuite.parameterTypes "no tokens here"
    ∧ applyParameterTypes NewSuite "no tokens here" = ["no tokens here"] := by
  obtain ⟨h1, h2, _⟩ := applyParameterTypes_spec NewSuite "no tokens here"
  exact ⟨h1, h2 (by decide)⟩

theorem findStepDef_ok_of_exists (steps : List stepDef) (text : String)
    (h : ∃ d ∈ steps, stepMatches text d = true ∧ 1 ≤ stepCount text d) :
    ∃ d, findStepDef steps text = .ok (some d) := by
  obtain ⟨d0, hd0, hm0, hc0⟩ := h
  have hpos : 1 ≤ bestMatchCount steps text :=
    Nat.le_trans hc0 (le_bestMatchCount text hd0 hm0)
  have hloop := findStepDefLoop_improve text steps
    { found := 0, matched := false, sd := none } (by simpa using hpos)
  obtain ⟨e, he, hme, hce⟩ := bestMatchCount_attained text steps hpos
  cases hres : steps.find? (fun e => stepMatches text e &&
      stepCount text e == bestMatchCount steps text) with
  | some d =>
    refine ⟨d, ?_⟩
    unfold findStepDef
    rw [hloop, hres]
    simp
  | none =>
    exact absurd (by simp [hme, hce] : (fun e => stepMatches text e &&
        stepCount text e == bestMatchCount steps text) e = true)
      (List.find?_eq_none.mp hres e he)

theorem AddStep_steps_extend (compile : String → Regexp) (s : Suite) (expr : String)
    (f : GoFunc) :
    ∃ t, (AddStep compile s expr f).steps = s.steps ++ t :=
  ⟨_, AddStep_steps compile s expr f⟩

theorem stepsFromExamplesLoop_extend (compile : String → Regexp) (src : MStep)
    (phs : List String) :
    ∀ (rows : List TableRow) (s : Suite),
      ∃ t, (stepsFromExamplesLoop compile s src phs rows).1.steps = s.steps ++ t := by
  intro rows
  induction rows with
  | nil => intro s; exact ⟨[], by simp [stepsFromExamplesLoop]⟩
  | cons row rows ih =>
    intro s
    simp only [stepsFromExamplesLoop]
    cases hf : findStepDef s.steps (stepFromExample src.text row phs).1 with
    | error m => exact ih s
    | ok od =>
      cases od with
      | none => exact ⟨[], by simp⟩
      | some d =>
        obtain ⟨t2, h2⟩ := ih (AddStep compile s (stepFromExample src.text row phs).2 d.f)
        rw [h2, AddStep_steps]
        exact ⟨_, by rw [List.append_assoc]⟩

theorem stepsFromExamplesLoop_content (compile : String → Regexp) (src : MStep)
    (phs : List String) :
    ∀ (rows : List TableRow) (s : Suite),
      (∀ row ∈ rows, ∃ d ∈ s.steps,
        stepMatches (stepFromExample src.text row phs).1 d = true
          ∧ 1 ≤ stepCount (stepFromExample src.text row phs).1 d) →
      (stepsFromExamplesLoop compile s src phs rows).2
        = rows.map (fun row =>
            { location := src.location, keyword := src.keyword,
              text := (stepFromExample src.text row phs).1 }) := by
  intro rows
  induction rows with
  | nil => intro s _; rfl
  | cons row rows ih =>
    intro s h
    obtain ⟨d, hd⟩ := findStepDef_ok_of_exists s.steps (stepFromExample src.text row phs).1
      (h row (List.mem_cons_self row rows))
    simp only [stepsFromExamplesLoop]
    rw [hd, List.map_cons]
    obtain ⟨t, ht⟩ := AddStep_steps_extend compile s (stepFromExample src.text row phs).2 d.f
    show MStep.mk src.keyword (stepFromExample src.text row phs).1 src.location
        :: (stepsFromExamplesLoop compile
            (AddStep compile s (stepFromExample src.text row phs).2 d.f) src phs rows).2
      = MStep.mk src.keyword (stepFromExample src.text row phs).1 src.location
        :: List.map
            (fun row => MStep.mk src.keyword (stepFromExample src.text row phs).1 src.location)
            rows
    congr 1
    exact ih (AddStep compile s (stepFromExample src.text row phs).2 d.f)
      (fun row2 hr2 => by
        obtain ⟨d2, hd2, hm2, hc2⟩ := h row2 (List.mem_cons_of_mem row hr2)
        exact ⟨d2, by rw [ht]; exact List.mem_append_left t hd2, hm2, hc2⟩)

theorem outlineStepsLists_single (compile : String → Regexp) (ex : Examples) :
    ∀ (steps : List MStep) (s : Suite),
      (∀ st ∈ steps, ∀ row ∈ ex.tableBody, ∃ d ∈ s.steps,
        stepMatches (stepFromExample st.text row (anglePlaceholders ex)).1 d = true
          ∧ 1 ≤ stepCount (stepFromExample st.text row (anglePlaceholders ex)).1 d) →
      (outlineStepsLists compile s steps [ex]).2
        = steps.map (fun st => ex.tableBody.map (fun row =>
            { location := st.location, keyword := st.keyword,
              text := (stepFromExample st.text row (anglePlaceholders ex)).1 })) := by
  intro steps
  induction steps with
  | nil => intro s _; rfl
  | cons st sts ih =>
    intro s h
    simp only [outlineStepsLists, outlineRowsForStep, stepsFromExamples, List.map_cons]
    rw [stepsFromExamplesLoop_content compile st (anglePlaceholders ex) ex.tableBody s
      (fun row hr => h st (List.mem_cons_self st sts) row hr)]
    obtain ⟨t, ht⟩ :=
      stepsFromExamplesLoop_extend compile st (anglePlaceholders ex) ex.tableBody s
    rw [List.append_nil]
    congr 1
    exact ih (stepsFromExamplesLoop compile s st (anglePlaceholders ex) ex.tableBody).1
      (fun st2 hst2 row hr => by
        obtain ⟨d2, hd2, hm2, hc2⟩ := h st2 (List.mem_cons_of_mem st hst2) row hr
        exact ⟨d2, by rw [ht]; exact List.mem_append_left t hd2, hm2, hc2⟩)

theorem range_map_getD {α β : Type} (g : α → β) (dflt : α) :
    ∀ l : List α, (List.range l.length).map (fun i => g (l.getD i dflt)) = l.map g := by
  intro l
  induction l with
  | nil => rfl
  | cons a t ih =>
    rw [List.length_cons, List.range_succ_eq_map, List.map_cons, List.map_map]
    congr 1

theorem getD_map_lt {α β : Type} (f : α → β) (d : β) (d2 : α) :
    ∀ (l : List α) (i : Nat), i < l.length → (l.map f).getD i d = f (l.getD i d2) := by
  intro l
  induction l with
  | nil => intro i h; simp at h
  | cons a t ih =>
    intro i h
    cases i with
    | zero => rfl
    | succ j =>
      simp only [List.map_cons, List.getD_cons_succ]
      exact ih j (by simpa using h)

theorem flatten_map_nil {α β : Type} (l : List α) :
    (l.map (fun _ => ([] : List β))).flatten = [] := by
  induction l with
  | nil => rfl
  | cons a t ih => simp [ih]

theorem flatten_const_length {β : Type} (k : Nat) :
    ∀ l : List (List β), (∀ x ∈ l, x.length = k) → l.flatten.length = l.length * k := by
  intro l
  induction l with
  | nil => simp
  | cons a t ih =>
    intro h
    simp only [List.flatten_cons, List.length_append, List.length_cons]
    rw [h a (List.mem_cons_self a t), ih (fun x hx => h x (List.mem_cons_of_mem a hx))]
    ring

theorem assembly_step (gen : MStep → TableRow → MStep) (steps : List MStep)
    (rows : List TableRow) :
    ((List.range rows.length).map (fun ci =>
        (List.range steps.length).map (fun si =>
          ((steps.map (fun st => rows.map (gen st))).getD si []).getD ci outOfRangeStep))).flatten
      = (rows.map (fun row => steps.map (fun st => gen st row))).flatten := by
  congr 1
  have hinner : ∀ ci : Nat,
      (List.range steps.length).map (fun si =>
        ((steps.map (fun st => rows.map (gen st))).getD si []).getD ci outOfRangeStep)
      = steps.map (fun st => (rows.map (gen st)).getD ci outOfRangeStep) := by
    intro ci
    have hlen : steps.length = (steps.map (fun st => rows.map (gen st))).length := by
      simp
    rw [hlen, range_map_getD (fun sub => sub.getD ci outOfRangeStep) [] _, List.map_map]
    rfl
  calc (List.range rows.length).map (fun ci =>
        (List.range steps.length).map (fun si =>
          ((steps.map (fun st => rows.map (gen st))).getD si []).getD ci outOfRangeStep))
      = (List.range rows.length).map (fun ci =>
          steps.map (fun st => (rows.map (gen st)).getD ci outOfRangeStep)) := by
        apply List.map_congr_left
        intro ci _
        exact hinner ci
    _ = (List.range rows.length).map (fun ci =>
          steps.map (fun st => gen st (rows.getD ci { cells := [] }))) := by
        apply List.map_congr_left
        intro ci hci
        apply List.map_congr_left
        intro st _
        exact getD_map_lt (gen st) outOfRangeStep { cells := [] } rows ci
          (List.mem_range.mp hci)
    _ = rows.map (fun row => steps.map (fun st => gen st row)) :=
        range_map_getD (fun row => steps.map (fun st => gen st row)) { cells := [] } rows

theorem outlineExpected_length (steps : List MStep) (ex : Examples) :
    (outlineExpected steps ex).length = ex.tableBody.length * steps.length := by
  unfold outlineExpected
  generalize ex.tableBody = rows
  induction rows with
  | nil => simp
  | cons row rows ih =>
    simp only [List.map_cons, List.flatten_cons, List.length_append, List.length_cons,
      List.length_map, ih]
    ring

/-- Claim C4 (amended): for a scenario outline over a single example
table with M steps and N body rows, each substituted step text
resolving against the registry, expansion yields exactly N×M concrete
steps ordered row-major: the M steps substituted with row 1 in original
step order, then row 2, and so on; and the synthesized fragments are as
claimed (an Atoi-parsable cell gives the digit fragment, otherwise a
ParseFloat(v, 32)-parsable cell the signed-float fragment, anything
else the permissive capture-all). With multiple example tables the
assembly reuses each table's local row indices against the
concatenated per-step lists, repeating earlier rows, so the claimed
row-major order holds only for a single table (see the
counterexample). -/
theorem getOutlineStep_single_table (compile : String → Regexp) (s : Suite)
    (steps : List MStep) (ex : Examples)
    (hres : ∀ st ∈ steps, ∀ row ∈ ex.tableBody, ∃ d ∈ s.steps,
      stepMatches (stepFromExample st.text row (anglePlaceholders ex)).1 d = true
        ∧ 1 ≤ stepCount (stepFromExample st.text row (anglePlaceholders ex)).1 d) :
    (getOutlineStep compile s steps [ex]).2 = outlineExpected steps ex
    ∧ (getOutlineStep compile s steps [ex]).2.length = ex.tableBody.length * steps.length
    ∧ (∀ v, goAtoiOk v = true → getRegexpForVar v = "(\\d+)")
    ∧ (∀ v, goAtoiOk v = false → goParseFloat32Ok v = true →
        getRegexpForVar v = "([+-]?([0-9]*[.])?[0-9]+)")
    ∧ (∀ v, goAtoiOk v = false → goParseFloat32Ok v = false → getRegexpForVar v = "(.*)") := by
  have hmain : (getOutlineStep compile s steps [ex]).2 = outlineExpected steps ex := by
    cases steps with
    | nil =>
      unfold getOutlineStep outlineExpected
      simp [flatten_map_nil]
    | cons st sts =>
      have hlists := outlineStepsLists_single compile ex (st :: sts) s hres
      unfold getOutlineStep
      simp only [List.isEmpty_cons, Bool.false_eq_true, if_false]
      rw [hlists]
      simp only [outlineAssembly, List.map_cons, List.map_nil, List.flatten_cons,
        List.flatten_nil, List.append_nil]
      exact assembly_step
        (fun st2 row => MStep.mk st2.keyword (stepFromExample st2.text row (anglePlaceholders ex)).1 st2.location)
        (st :: sts) ex.tableBody
  refine ⟨hmain, ?_, ?_, ?_, ?_⟩
  · rw [hmain]
    exact outlineExpected_length steps ex
  · intro v hv
    simp [getRegexpForVar, hv]
  · intro v hv1 hv2
    simp [getRegexpForVar, hv1, hv2]
  · intro v hv1 hv2
    simp [getRegexpForVar, hv1, hv2]

theorem getOutlineStep_single_table_witness :
    (getOutlineStep wCompileAll cxSuite [cxOutlineStep] [cxExample1]).2
      = outlineExpected [cxOutlineStep] cxExample1
    ∧ (getOutlineStep wCompileAll cxSuite [cxOutlineStep] [cxExample1]).2.length = 1 * 1 := by
  obtain ⟨h1, h2, _⟩ := getOutlineStep_single_table wCompileAll cxSuite [cxOutlineStep] cxExample1
    (by
      intro st hst row hrow
      refine ⟨wDefAll, ?_, rfl, ?_⟩
      · simp [cxSuite]
      · exact Nat.le_refl 1)
  exact ⟨h1, h2⟩

end Gobdd
